import Mathlib

/-!
Shallow embedding of the Fast-Quant-Core indicator engine
(src/core/include/indicators.h) and dual moving-average crossover strategy
(src/core/include/strategy.h, src/core/include/market_data.h).

C++ doubles are embedded as exact rationals, with an explicit constructor
for the non-finite values that the validation code tests for.  The final
square root applied by the standard-deviation routines is `Real.sqrt` over
the rational intermediate value; all other arithmetic is exact.
-/

namespace FastQuant

/-- A C++ `double` as seen by the indicator engine: either a finite value
(embedded exactly as a rational) or one of the non-finite values that
`std::isfinite` rejects. -/
inductive DVal where
  | num (q : ℚ)
  | nan
  | inf
  | ninf
deriving DecidableEq, Repr

/-- `std::isfinite` on the embedded double. -/
def DVal.isFinite : DVal → Bool
  | .num _ => true
  | _ => false

/-- The rational value of a finite embedded double (junk 0 on the
non-finite constructors, which every use guards against). -/
def DVal.toQ : DVal → ℚ
  | .num q => q
  | _ => 0

/-- Generic sliding-window loop shared by SMA, RollingStdDev and
BollingerBands: the C++ loops `for (i = period; i < n; ++i)` update an
accumulator state from the element leaving the window (`data[i-period]`)
and the element entering it (`data[i]`), and emit one output per step.
`olds` is the whole data list, `news` is the data list with the first
`period` elements dropped. -/
def slideWin {α : Type} (step : α → ℚ → ℚ → α) : α → List ℚ → List ℚ → List α
  | _, _, [] => []
  | _, [], _ => []
  | st, old :: olds, nv :: news =>
    let st2 := step st old nv
    st2 :: slideWin step st2 olds news

/-- The accumulator update of `Indicators::SMA`: `sum = sum - data[i-period] + data[i]`. -/
def smaStep (s old nv : ℚ) : ℚ := s - old + nv

/-- `Indicators::SMA` (indicators.h lines 29-58). -/
def SMA (data : List DVal) (period : ℤ) : List ℚ :=
  if period ≤ 0 ∨ data = [] ∨ data.length < period.toNat then []
  else if ¬ (data.all DVal.isFinite) then []
  else
    let qs := data.map DVal.toQ
    let p := period.toNat
    let sum0 := (qs.take p).sum
    (sum0 :: slideWin smaStep sum0 qs (qs.drop p)).map (fun s => s / (period : ℚ))

/-- The recurrence loop of `Indicators::EMA`, which starts at index 1 of the
data (`for (size_t i = 1; i < data.size(); ++i)`). -/
def emaRec (multiplier : ℚ) : ℚ → List ℚ → List ℚ
  | _, [] => []
  | ema, x :: xs =>
    let e := (x - ema) * multiplier + ema
    e :: emaRec multiplier e xs

/-- `Indicators::EMA` (indicators.h lines 67-99).  The seed (simple average
of the first `period` elements) is emitted at output index 0 and the
recurrence then consumes `data[1], data[2], ...`. -/
def EMA (data : List DVal) (period : ℤ) : List ℚ :=
  if period ≤ 0 ∨ data = [] ∨ data.length < period.toNat then []
  else if ¬ (data.all DVal.isFinite) then []
  else
    let qs := data.map DVal.toQ
    let multiplier : ℚ := 2 / ((period : ℚ) + 1)
    let ema0 := (qs.take period.toNat).sum / (period : ℚ)
    ema0 :: emaRec multiplier ema0 (qs.drop 1)

/-- One step of Welford's online algorithm as coded in `Indicators::StdDev`:
state is (mean, m2, count). -/
def welfordStep (st : ℚ × ℚ × ℕ) (x : ℚ) : ℚ × ℚ × ℕ :=
  let count := st.2.2 + 1
  let delta := x - st.1
  let mean := st.1 + delta / (count : ℚ)
  let delta2 := x - mean
  (mean, st.2.1 + delta * delta2, count)

/-- The value whose square root `Indicators::StdDev` returns: `m2 / count`
after the Welford pass, or 0 on the early-return branches (empty input,
non-finite element, fewer than 2 values).  The C++ returns `0.0` directly
on those branches and `sqrt(m2/count)` otherwise; since `sqrt 0 = 0` the
two factorings produce identical outputs. -/
def StdDevVar (data : List DVal) : ℚ :=
  if data = [] then 0
  else if ¬ (data.all DVal.isFinite) then 0
  else
    let st := (data.map DVal.toQ).foldl welfordStep (0, 0, 0)
    if st.2.2 < 2 then 0 else st.2.1 / (st.2.2 : ℚ)

/-- `Indicators::StdDev` (indicators.h lines 107-133). -/
noncomputable def StdDev (data : List DVal) : ℝ := Real.sqrt (StdDevVar data)

/-- The paired accumulator update of `Indicators::RollingStdDev` and
`Indicators::BollingerBands`: running `sum(x)` and `sum(x^2)` over the
sliding window. -/
def rollStep (st : ℚ × ℚ) (old nv : ℚ) : ℚ × ℚ :=
  (st.1 - old + nv, st.2 - old * old + nv * nv)

/-- Per-window variance as coded in `Indicators::RollingStdDev`:
`max(0, sum_x2/period - mean*mean)` with `mean = sum_x/period`. -/
def varOf (period : ℚ) (st : ℚ × ℚ) : ℚ :=
  max 0 (st.2 / period - (st.1 / period) * (st.1 / period))

/-- The list of clamped per-window variances computed by
`Indicators::RollingStdDev` (indicators.h lines 145-190); the function's
output is the elementwise square root of this list. -/
def RollingVar (data : List DVal) (period : ℤ) : List ℚ :=
  if period ≤ 0 ∨ data = [] ∨ data.length < period.toNat then []
  else if ¬ (data.all DVal.isFinite) then []
  else
    let qs := data.map DVal.toQ
    let p := period.toNat
    let st0 : ℚ × ℚ := ((qs.take p).sum, ((qs.take p).map (fun x => x * x)).sum)
    (st0 :: slideWin rollStep st0 qs (qs.drop p)).map (varOf (period : ℚ))

/-- `Indicators::RollingStdDev`. -/
noncomputable def RollingStdDev (data : List DVal) (period : ℤ) : List ℝ :=
  (RollingVar data period).map (fun v : ℚ => Real.sqrt (v : ℝ))

/-- The per-window (mean, clamped variance) pairs computed inline by
`Indicators::BollingerBands` (indicators.h lines 202-264), using the same
sliding `sum(x)` / `sum(x^2)` accumulators as `RollingStdDev`.  The three
band lists are elementwise functions of these pairs. -/
def BollingerMeanVar (data : List DVal) (period : ℤ) (mult : ℚ) : List (ℚ × ℚ) :=
  if period ≤ 0 ∨ data = [] ∨ data.length < period.toNat ∨ mult < 0 then []
  else if ¬ (data.all DVal.isFinite) then []
  else
    let qs := data.map DVal.toQ
    let p := period.toNat
    let st0 : ℚ × ℚ := ((qs.take p).sum, ((qs.take p).map (fun x => x * x)).sum)
    (st0 :: slideWin rollStep st0 qs (qs.drop p)).map
      (fun st => (st.1 / (period : ℚ), varOf (period : ℚ) st))

/-- `Indicators::BollingerBands`, returning (upper, middle, lower). -/
noncomputable def BollingerBands (data : List DVal) (period : ℤ) (mult : ℚ) :
    List ℝ × List ℝ × List ℝ :=
  let mv := BollingerMeanVar data period mult
  (mv.map (fun st => (st.1 : ℝ) + (mult : ℝ) * Real.sqrt st.2),
   mv.map (fun st => ((st.1 : ℚ) : ℝ)),
   mv.map (fun st => (st.1 : ℝ) - (mult : ℝ) * Real.sqrt st.2))

/-- `fastquant::Signal` (market_data.h lines 56-60). -/
inductive Signal where
  | BUY
  | SELL
  | HOLD
deriving DecidableEq, Repr

/-- `fastquant::Tick` (market_data.h lines 11-20), price and volume embedded
as exact rationals. -/
structure Tick where
  symbol : String
  price : ℚ
  volume : ℚ
  timestamp : ℤ
deriving DecidableEq, Repr

/-- The strategy state held by a `fastquant::DualMAStrategy` instance
(strategy.h lines 156-163): configuration plus the mutable price deque,
stored fast/slow moving averages and last emitted signal. -/
structure DualMAStrategy where
  symbol : String
  fast_period : ℤ
  slow_period : ℤ
  prices : List ℚ
  fast_ma : ℚ
  slow_ma : ℚ
  last_signal : Signal
deriving DecidableEq, Repr

/-- `static_cast<size_t>` of a C++ `int` (two's-complement wraparound into
an unsigned 64-bit value).  The strategy compares deque sizes against the
casts of its `int` periods. -/
def toSizeT (i : ℤ) : ℕ := (i % (2 : ℤ) ^ 64).toNat

/-- The `DualMAStrategy` constructor (strategy.h lines 30-39). -/
def mkDualMAStrategy (symbol : String) (fast_period slow_period : ℤ) : DualMAStrategy :=
  { symbol := symbol
    fast_period := fast_period
    slow_period := slow_period
    prices := []
    fast_ma := 0
    slow_ma := 0
    last_signal := Signal.HOLD }

/-- `DualMAStrategy::calculateMA` (strategy.h lines 112-122): mean of the
last `period` buffered prices, or the 0.0 sentinel when the buffer holds
fewer than `size_t(period)` prices. -/
def calculateMA (prices : List ℚ) (period : ℤ) : ℚ :=
  if prices.length < toSizeT period then 0
  else (prices.drop (prices.length - period.toNat)).sum / (period : ℚ)

/-- `DualMAStrategy::generateSignal` (strategy.h lines 134-154), returning
the emitted signal together with the updated `last_signal_` field (the
final HOLD branch is the only one that leaves `last_signal_` unchanged). -/
def generateSignal (fast_ma slow_ma new_fast_ma new_slow_ma : ℚ) (last : Signal) :
    Signal × Signal :=
  if fast_ma = 0 ∨ slow_ma = 0 then (Signal.HOLD, Signal.HOLD)
  else if fast_ma ≤ slow_ma ∧ new_slow_ma < new_fast_ma then (Signal.BUY, Signal.BUY)
  else if slow_ma ≤ fast_ma ∧ new_fast_ma < new_slow_ma then (Signal.SELL, Signal.SELL)
  else (Signal.HOLD, last)

/-- The buffer update of `DualMAStrategy::onTick` (strategy.h lines 52-58):
append the price, then pop the front if the size exceeds
`size_t(slow_period_)`. -/
def pushPrice (s : DualMAStrategy) (price : ℚ) : List ℚ :=
  let l := s.prices ++ [price]
  if toSizeT s.slow_period < l.length then l.tail else l

/-- `DualMAStrategy::onTick` (strategy.h lines 47-77) as a pure state
transformer: returns the emitted signal and the updated strategy state. -/
def onTick (s : DualMAStrategy) (tick : Tick) : Signal × DualMAStrategy :=
  if tick.symbol ≠ s.symbol then (Signal.HOLD, s)
  else
    let prices2 := pushPrice s tick.price
    if prices2.length < toSizeT s.slow_period then
      (Signal.HOLD, { s with prices := prices2 })
    else
      let new_fast_ma := calculateMA prices2 s.fast_period
      let new_slow_ma := calculateMA prices2 s.slow_period
      let sig := generateSignal s.fast_ma s.slow_ma new_fast_ma new_slow_ma s.last_signal
      (sig.1, { s with prices := prices2
                       fast_ma := new_fast_ma
                       slow_ma := new_slow_ma
                       last_signal := sig.2 })

/-- `DualMAStrategy::backtestOnTicks` (strategy.h lines 85-94): sequential
application of `onTick`, collecting the signals in input order. -/
def backtestOnTicks (s : DualMAStrategy) (ticks : List Tick) : List Signal × DualMAStrategy :=
  match ticks with
  | [] => ([], s)
  | t :: ts =>
    let r := onTick s t
    let rest := backtestOnTicks r.2 ts
    (r.1 :: rest.1, rest.2)

/-- The spec's brute-force reference value for windowed means: the exact
arithmetic mean of the window of length `p` starting at input index `i`. -/
def windowMean (qs : List ℚ) (p i : ℕ) : ℚ := ((qs.drop i).take p).sum / (p : ℚ)

/-- Sum of the window of length `p` starting at index `i`. -/
def windowSum (qs : List ℚ) (p i : ℕ) : ℚ := ((qs.drop i).take p).sum

/-- An observation for symbol "X" carrying the given price (volume and
timestamp are irrelevant to the strategy logic). -/
def tickX (p : ℚ) : Tick := { symbol := "X", price := p, volume := 1, timestamp := 0 }

/-! ### Helper lemmas -/

theorem toSizeT_eq_toNat (i : ℤ) (h0 : 0 ≤ i) (h1 : i < 2 ^ 64) : toSizeT i = i.toNat := by
  unfold toSizeT
  rw [Int.emod_eq_of_lt h0 h1]

theorem tail_append_of_ne_nil (xs ys : List ℚ) (h : xs ≠ []) :
    (xs ++ ys).tail = xs.tail ++ ys := by
  cases xs with
  | nil => exact absurd rfl h
  | cons a t => rfl

theorem pushPrice_length_le (s : DualMAStrategy) (price : ℚ)
    (hlen : s.prices.length ≤ toSizeT s.slow_period) :
    (pushPrice s price).length ≤ toSizeT s.slow_period := by
  unfold pushPrice
  by_cases h : toSizeT s.slow_period < (s.prices ++ [price]).length
  · rw [if_pos h]
    simp only [List.length_tail, List.length_append, List.length_singleton] at *
    omega
  · rw [if_neg h]
    omega

theorem onTick_prices_eq (s : DualMAStrategy) (t : Tick) (h : t.symbol = s.symbol) :
    ((onTick s t).2).prices = pushPrice s t.price := by
  unfold onTick
  rw [if_neg (by simp [h])]
  dsimp only
  split
  · rfl
  · rfl

theorem calculateMA_sentinel (prices : List ℚ) (period : ℤ)
    (h : prices.length < toSizeT period) : calculateMA prices period = 0 := by
  unfold calculateMA
  rw [if_pos h]

theorem onTick_degenerate_step (s : DualMAStrategy) (t : Tick)
    (hma : s.fast_ma = 0)
    (hlen : s.prices.length ≤ toSizeT s.slow_period)
    (hlt : toSizeT s.slow_period < toSizeT s.fast_period) :
    (onTick s t).1 = Signal.HOLD ∧ (onTick s t).2.fast_ma = 0 ∧
      (onTick s t).2.prices.length ≤ toSizeT s.slow_period ∧
      (onTick s t).2.slow_period = s.slow_period ∧
      (onTick s t).2.fast_period = s.fast_period := by
  by_cases hsym : t.symbol = s.symbol
  · have hp2 := pushPrice_length_le s t.price hlen
    unfold onTick
    rw [if_neg (by simp [hsym])]
    dsimp only
    by_cases hw : (pushPrice s t.price).length < toSizeT s.slow_period
    · rw [if_pos hw]
      exact ⟨rfl, hma, hp2, rfl, rfl⟩
    · rw [if_neg hw]
      have hfast : calculateMA (pushPrice s t.price) s.fast_period = 0 :=
        calculateMA_sentinel _ _ (lt_of_le_of_lt hp2 hlt)
      refine ⟨?_, hfast, hp2, rfl, rfl⟩
      simp [generateSignal, hma]
  · unfold onTick
    rw [if_pos hsym]
    exact ⟨rfl, hma, hlen, rfl, rfl⟩

theorem backtest_degenerate (ticks : List Tick) :
    ∀ s : DualMAStrategy, s.fast_ma = 0 →
      s.prices.length ≤ toSizeT s.slow_period →
      toSizeT s.slow_period < toSizeT s.fast_period →
      (backtestOnTicks s ticks).1 = List.replicate ticks.length Signal.HOLD := by
  induction ticks with
  | nil => intro s _ _ _; rfl
  | cons t ts ih =>
    intro s hma hlen hlt
    obtain ⟨h1, h2, h3, h4, h5⟩ := onTick_degenerate_step s t hma hlen hlt
    unfold backtestOnTicks
    dsimp only
    rw [List.length_cons, List.replicate_succ, h1,
      ih ((onTick s t).2) h2 (by rw [h4]; exact h3) (by rw [h4, h5]; exact hlt)]

/-! ### Claims about the crossover strategy -/

/-- C8: an observation whose symbol differs from the strategy's configured
symbol makes `onTick` return HOLD and leave the whole strategy state
(buffer, stored averages, everything) unchanged. -/
theorem mismatched_symbol_noop (s : DualMAStrategy) (t : Tick)
    (h : t.symbol ≠ s.symbol) : onTick s t = (Signal.HOLD, s) := by
  unfold onTick
  rw [if_pos h]

/-- Witness for C8 at a concrete state and observation. -/
theorem mismatched_symbol_noop_witness :
    onTick (mkDualMAStrategy "X" 2 3)
        { symbol := "Y", price := 7, volume := 1, timestamp := 0 } =
      (Signal.HOLD, mkDualMAStrategy "X" 2 3) :=
  mismatched_symbol_noop _ _ (by decide)

/-- C9: the price buffer never holds more than `slow_period` elements: the
invariant holds in the constructed state, is preserved by every `onTick`
call, and when the buffer is full a matching observation evicts the oldest
element. -/
theorem buffer_capacity_invariant (s : DualMAStrategy) (t : Tick)
    (hslow : 1 ≤ s.slow_period) (hslow31 : s.slow_period < 2 ^ 31)
    (hinv : s.prices.length ≤ toSizeT s.slow_period) :
    (mkDualMAStrategy s.symbol s.fast_period s.slow_period).prices.length ≤
        toSizeT s.slow_period ∧
      ((onTick s t).2).prices.length ≤ toSizeT s.slow_period ∧
      (t.symbol = s.symbol → s.prices.length = toSizeT s.slow_period →
        ((onTick s t).2).prices = s.prices.tail ++ [t.price]) := by
  have hsz : toSizeT s.slow_period = s.slow_period.toNat :=
    toSizeT_eq_toNat _ (by omega)
      (by have : (2 : ℤ) ^ 31 < 2 ^ 64 := by norm_num
          omega)
  refine ⟨by simp [mkDualMAStrategy], ?_, ?_⟩
  · by_cases hsym : t.symbol = s.symbol
    · rw [onTick_prices_eq s t hsym]
      exact pushPrice_length_le s t.price hinv
    · unfold onTick
      rw [if_pos hsym]
      exact hinv
  · intro hsym hfull
    rw [onTick_prices_eq s t hsym]
    unfold pushPrice
    have hne : s.prices ≠ [] := by
      intro h0
      rw [h0] at hfull
      simp only [List.length_nil] at hfull
      omega
    rw [if_pos (by simp only [List.length_append, List.length_singleton]; omega)]
    exact tail_append_of_ne_nil _ _ hne

/-- Witness for C9 at a concrete full-buffer state. -/
theorem buffer_capacity_invariant_witness :
    (mkDualMAStrategy "X" 2 3).prices.length ≤ toSizeT 3 ∧
      ((onTick ⟨"X", 2, 3, [1, 2, 3], 0, 0, Signal.HOLD⟩ (tickX 9)).2).prices.length ≤
        toSizeT 3 ∧
      ((onTick ⟨"X", 2, 3, [1, 2, 3], 0, 0, Signal.HOLD⟩ (tickX 9)).2).prices = [2, 3, 9] := by
  have h := buffer_capacity_invariant ⟨"X", 2, 3, [1, 2, 3], 0, 0, Signal.HOLD⟩ (tickX 9)
    (by norm_num) (by norm_num) (by decide)
  exact ⟨h.1, h.2.1, by have h3 := h.2.2 rfl (by decide); simpa using h3⟩

/-- C10: with `fast_period > slow_period ≥ 1` (within the `int` range) the
buffer can never hold `fast_period` prices, the fast average stays at the
0.0 sentinel, and every emitted signal is HOLD. -/
theorem degenerate_periods_always_hold (symbol : String) (fast slow : ℤ)
    (ticks : List Tick) (h1 : 1 ≤ slow) (h2 : slow < fast) (h3 : fast < 2 ^ 31) :
    (backtestOnTicks (mkDualMAStrategy symbol fast slow) ticks).1 =
      List.replicate ticks.length Signal.HOLD := by
  have e64 : (2 : ℤ) ^ 31 < 2 ^ 64 := by norm_num
  apply backtest_degenerate
  · rfl
  · simp [mkDualMAStrategy]
  · show toSizeT slow < toSizeT fast
    rw [toSizeT_eq_toNat slow (by omega) (by omega),
      toSizeT_eq_toNat fast (by omega) (by omega)]
    omega

/-- Witness for C10: fast=3 > slow=1, two matching ticks, all signals HOLD. -/
theorem degenerate_periods_always_hold_witness :
    (backtestOnTicks (mkDualMAStrategy "X" 3 1) [tickX 5, tickX 6]).1 =
      List.replicate 2 Signal.HOLD := by
  have h := degenerate_periods_always_hold "X" 3 1 [tickX 5, tickX 6]
    (by norm_num) (by norm_num) (by norm_num)
  simpa using h

/-- C1 (amended): in the ACTIVE state, `onTick` emits the step-5 crossover
signal computed from the previous stored averages and the newly computed
averages whenever NEITHER previously stored average is exactly zero, and
emits the no-prior-state HOLD whenever EITHER previously stored average is
exactly zero (the code tests `fast_ma_ == 0.0 || slow_ma_ == 0.0`, not
"both are zero" as the spec states). -/
theorem onTick_active_crossover (s : DualMAStrategy) (t : Tick)
    (hsym : t.symbol = s.symbol)
    (hfull : toSizeT s.slow_period ≤ (pushPrice s t.price).length) :
    (s.fast_ma ≠ 0 ∧ s.slow_ma ≠ 0 →
      (onTick s t).1 =
        (if s.fast_ma ≤ s.slow_ma ∧
            calculateMA (pushPrice s t.price) s.slow_period <
              calculateMA (pushPrice s t.price) s.fast_period then Signal.BUY
         else if s.slow_ma ≤ s.fast_ma ∧
            calculateMA (pushPrice s t.price) s.fast_period <
              calculateMA (pushPrice s t.price) s.slow_period then Signal.SELL
         else Signal.HOLD)) ∧
    (s.fast_ma = 0 ∨ s.slow_ma = 0 → (onTick s t).1 = Signal.HOLD) := by
  unfold onTick
  rw [if_neg (by simp [hsym]), if_neg (not_lt.mpr hfull)]
  dsimp only
  constructor
  · intro hnz
    unfold generateSignal
    rw [if_neg (by push_neg; exact hnz)]
    split_ifs <;> rfl
  · intro hz
    unfold generateSignal
    rw [if_pos hz]

/-- Witness for C1 at a concrete ACTIVE state with both stored averages
nonzero. -/
theorem onTick_active_crossover_witness :
    (onTick ⟨"X", 2, 3, [1, 1], 1, 2, Signal.HOLD⟩ (tickX 5)).1 =
      (if (1 : ℚ) ≤ 2 ∧
          calculateMA (pushPrice ⟨"X", 2, 3, [1, 1], 1, 2, Signal.HOLD⟩ 5) 3 <
            calculateMA (pushPrice ⟨"X", 2, 3, [1, 1], 1, 2, Signal.HOLD⟩ 5) 2
       then Signal.BUY
       else if (2 : ℚ) ≤ 1 ∧
          calculateMA (pushPrice ⟨"X", 2, 3, [1, 1], 1, 2, Signal.HOLD⟩ 5) 2 <
            calculateMA (pushPrice ⟨"X", 2, 3, [1, 1], 1, 2, Signal.HOLD⟩ 5) 3
       then Signal.SELL
       else Signal.HOLD) := by
  have h := onTick_active_crossover ⟨"X", 2, 3, [1, 1], 1, 2, Signal.HOLD⟩ (tickX 5)
    rfl (by norm_num [pushPrice, toSizeT])
  exact h.1 (by norm_num)

/-- C1 counterexample: starting from the constructed strategy (symbol "X",
fast=2, slow=3) and feeding prices 3, -1, 1, the stored averages become
fast=0, slow=1 — NOT both zero.  On the next matching observation (price 5)
the buffer is full, the previous fast average (0) is at or below the
previous slow average (1), and the new fast average exceeds the new slow
average, so the claim requires BUY; the code emits HOLD because its
sentinel test fires when either stored average is zero. -/
theorem onTick_active_crossover_cex :
    (backtestOnTicks (mkDualMAStrategy "X" 2 3) ([3, -1, 1].map tickX)).2 =
        ⟨"X", 2, 3, [3, -1, 1], 0, 1, Signal.HOLD⟩ ∧
      ¬ ((0 : ℚ) = 0 ∧ (1 : ℚ) = 0) ∧
      (0 : ℚ) ≤ 1 ∧
      calculateMA (pushPrice ⟨"X", 2, 3, [3, -1, 1], 0, 1, Signal.HOLD⟩ 5) 3 <
        calculateMA (pushPrice ⟨"X", 2, 3, [3, -1, 1], 0, 1, Signal.HOLD⟩ 5) 2 ∧
      (pushPrice ⟨"X", 2, 3, [3, -1, 1], 0, 1, Signal.HOLD⟩ 5).length =
        toSizeT (3 : ℤ) ∧
      (onTick ⟨"X", 2, 3, [3, -1, 1], 0, 1, Signal.HOLD⟩ (tickX 5)).1 = Signal.HOLD ∧
      Signal.HOLD ≠ Signal.BUY := by
  refine ⟨?_, by norm_num, by norm_num, ?_, ?_, ?_, by simp⟩
  · norm_num [backtestOnTicks, onTick, pushPrice, calculateMA, generateSignal,
      mkDualMAStrategy, tickX, toSizeT, List.map,
      show (2 : ℤ).toNat = 2 from rfl, show (3 : ℤ).toNat = 3 from rfl]
  · norm_num [pushPrice, calculateMA, toSizeT,
      show (2 : ℤ).toNat = 2 from rfl, show (3 : ℤ).toNat = 3 from rfl]
  · norm_num [pushPrice, toSizeT, show (3 : ℤ).toNat = 3 from rfl]
  · norm_num [onTick, pushPrice, calculateMA, generateSignal, tickX, toSizeT,
      show (2 : ℤ).toNat = 2 from rfl, show (3 : ℤ).toNat = 3 from rfl]

/-- C7: the spec's crossover scenario: fast=2, slow=3, prices
[1,1,1,5,5,1] for symbol "X" produce exactly
[HOLD, HOLD, HOLD, BUY, HOLD, SELL]. -/
theorem crossover_scenario :
    (backtestOnTicks (mkDualMAStrategy "X" 2 3) ([1, 1, 1, 5, 5, 1].map tickX)).1 =
      [Signal.HOLD, Signal.HOLD, Signal.HOLD, Signal.BUY, Signal.HOLD, Signal.SELL] := by
  norm_num [backtestOnTicks, onTick, pushPrice, calculateMA, generateSignal,
    mkDualMAStrategy, tickX, toSizeT, List.map,
    show (2 : ℤ).toNat = 2 from rfl, show (3 : ℤ).toNat = 3 from rfl]

/-- C4: every windowed indicator operation returns an empty result (and,
being a total function, cannot raise) on each invalid-input category:
non-positive period, empty input, period exceeding the input length, a
non-finite input element, and (for BollingerBands) a negative multiplier. -/
theorem invalid_input_empty (data : List DVal) (period : ℤ) (mult : ℚ) :
    ((period ≤ 0 ∨ data = [] ∨ data.length < period.toNat ∨
        data.all DVal.isFinite = false) →
      SMA data period = [] ∧ EMA data period = [] ∧
        RollingStdDev data period = [] ∧
        BollingerBands data period mult = ([], [], [])) ∧
    (mult < 0 → BollingerBands data period mult = ([], [], [])) := by
  have hBB : ∀ h : BollingerMeanVar data period mult = [],
      BollingerBands data period mult = ([], [], []) := by
    intro h
    unfold BollingerBands
    rw [h]
    rfl
  constructor
  · intro h
    have hSMA : SMA data period = [] := by
      unfold SMA
      by_cases hb : period ≤ 0 ∨ data = [] ∨ data.length < period.toNat
      · rw [if_pos hb]
      · have hfin : data.all DVal.isFinite = false := by tauto
        rw [if_neg hb, if_pos (by simp [hfin])]
    have hEMA : EMA data period = [] := by
      unfold EMA
      by_cases hb : period ≤ 0 ∨ data = [] ∨ data.length < period.toNat
      · rw [if_pos hb]
      · have hfin : data.all DVal.isFinite = false := by tauto
        rw [if_neg hb, if_pos (by simp [hfin])]
    have hRV : RollingVar data period = [] := by
      unfold RollingVar
      by_cases hb : period ≤ 0 ∨ data = [] ∨ data.length < period.toNat
      · rw [if_pos hb]
      · have hfin : data.all DVal.isFinite = false := by tauto
        rw [if_neg hb, if_pos (by simp [hfin])]
    have hMV : BollingerMeanVar data period mult = [] := by
      unfold BollingerMeanVar
      by_cases hb : period ≤ 0 ∨ data = [] ∨ data.length < period.toNat ∨ mult < 0
      · rw [if_pos hb]
      · have hfin : data.all DVal.isFinite = false := by tauto
        rw [if_neg hb, if_pos (by simp [hfin])]
    refine ⟨hSMA, hEMA, ?_, hBB hMV⟩
    unfold RollingStdDev
    rw [hRV]
    rfl
  · intro h
    apply hBB
    unfold BollingerMeanVar
    rw [if_pos (Or.inr (Or.inr (Or.inr h)))]

/-- Witness for C4: concrete invalid inputs produce empty results. -/
theorem invalid_input_empty_witness :
    SMA [DVal.nan] 0 = [] ∧ EMA [DVal.nan] 0 = [] ∧
      RollingStdDev [DVal.nan] 0 = [] ∧
      BollingerBands [DVal.nan] 0 (-1) = ([], [], []) ∧
      BollingerBands [DVal.num 1] 1 (-1) = ([], [], []) := by
  have h1 := (invalid_input_empty [DVal.nan] 0 (-1)).1 (Or.inl (by norm_num))
  have h2 := (invalid_input_empty [DVal.num 1] 1 (-1)).2 (by norm_num)
  exact ⟨h1.1, h1.2.1, h1.2.2.1, h1.2.2.2, h2⟩

/-! ### Sliding-window machinery -/

theorem drop_eq_getD_cons : ∀ (l : List ℚ) (j : ℕ), j < l.length →
    l.drop j = l.getD j 0 :: l.drop (j + 1) := by
  intro l
  induction l with
  | nil => intro j h; simp at h
  | cons a t ih =>
    intro j h
    cases j with
    | zero => simp
    | succ j =>
      simp only [List.drop_succ_cons, List.getD_cons_succ]
      exact ih j (by simpa using h)

theorem getD_drop (l : List ℚ) (i : ℕ) : ∀ j : ℕ, (l.drop i).getD j 0 = l.getD (i + j) 0 := by
  induction l generalizing i with
  | nil => intro j; simp
  | cons a t ih =>
    intro j
    cases i with
    | zero => simp
    | succ i =>
      simp only [List.drop_succ_cons]
      have : i + 1 + j = (i + j) + 1 := by omega
      rw [this, List.getD_cons_succ]
      exact ih i j

theorem getD_map_sq (l : List ℚ) : ∀ j : ℕ,
    (l.map (fun x => x * x)).getD j 0 = l.getD j 0 * l.getD j 0 := by
  induction l with
  | nil => intro j; simp
  | cons a t ih =>
    intro j
    cases j with
    | zero => simp
    | succ n =>
      simp only [List.map_cons, List.getD_cons_succ]
      exact ih n

theorem take_succ_eq_getD_append (l : List ℚ) (q : ℕ) (h : q < l.length) :
    l.take (q + 1) = l.take q ++ [l.getD q 0] := by
  induction l generalizing q with
  | nil => simp at h
  | cons a t ih =>
    cases q with
    | zero => simp
    | succ q =>
      simp only [List.take_succ_cons, List.getD_cons_succ, List.cons_append]
      rw [ih q (by simpa using h)]

theorem windowSum_succ (qs : List ℚ) (p j : ℕ) (hp : 1 ≤ p) (h : j + p < qs.length) :
    windowSum qs p (j + 1) = windowSum qs p j - qs.getD j 0 + qs.getD (j + p) 0 := by
  obtain ⟨q, rfl⟩ : ∃ q, p = q + 1 := ⟨p - 1, by omega⟩
  have hj : j < qs.length := by omega
  have h1 : windowSum qs (q + 1) j = qs.getD j 0 + ((qs.drop (j + 1)).take q).sum := by
    unfold windowSum
    rw [drop_eq_getD_cons qs j hj, List.take_succ_cons, List.sum_cons]
  have hq : q < (qs.drop (j + 1)).length := by
    rw [List.length_drop]
    omega
  have h2 : windowSum qs (q + 1) (j + 1) =
      ((qs.drop (j + 1)).take q).sum + qs.getD (j + (q + 1)) 0 := by
    unfold windowSum
    rw [take_succ_eq_getD_append _ q hq, List.sum_append, getD_drop, List.sum_singleton]
    congr 2
    omega
  rw [h1, h2]
  ring

theorem slideWin_cons {α : Type} (step : α → ℚ → ℚ → α) (st : α) (old nv : ℚ)
    (olds news : List ℚ) :
    slideWin step st (old :: olds) (nv :: news) =
      step st old nv :: slideWin step (step st old nv) olds news := rfl

theorem slideWin_spec {α : Type} (step : α → ℚ → ℚ → α) (qs : List ℚ) (p : ℕ) (c : ℕ → α)
    (hstep : ∀ j, j + p < qs.length →
      step (c j) (qs.getD j 0) (qs.getD (j + p) 0) = c (j + 1)) :
    ∀ fuel j, fuel = qs.length - (j + p) →
      slideWin step (c j) (qs.drop j) (qs.drop (j + p)) =
        (List.range fuel).map (fun k => c (j + k + 1)) := by
  intro fuel
  induction fuel with
  | zero =>
    intro j hf
    have hle : qs.length ≤ j + p := by omega
    rw [List.drop_eq_nil_of_le hle]
    cases qs.drop j <;> rfl
  | succ n ih =>
    intro j hf
    have h1 : j + p < qs.length := by omega
    have hj : j < qs.length := by omega
    rw [drop_eq_getD_cons qs (j + p) h1, drop_eq_getD_cons qs j hj, slideWin_cons,
      hstep j h1, show j + p + 1 = (j + 1) + p from by omega, ih (j + 1) (by omega),
      List.range_succ_eq_map, List.map_cons, List.map_map]
    congr 1
    apply List.map_congr_left
    intro k _
    show c (j + 1 + k + 1) = c (j + Nat.succ k + 1)
    congr 1
    omega

theorem slide_sums_spec (qs : List ℚ) (p : ℕ) (hp : 1 ≤ p) (hpl : p ≤ qs.length) :
    (qs.take p).sum :: slideWin smaStep ((qs.take p).sum) qs (qs.drop p) =
      (List.range (qs.length - p + 1)).map (fun i => windowSum qs p i) := by
  have hstep : ∀ j, j + p < qs.length →
      smaStep (windowSum qs p j) (qs.getD j 0) (qs.getD (j + p) 0) = windowSum qs p (j + 1) := by
    intro j hj
    unfold smaStep
    rw [windowSum_succ qs p j hp hj]
  have h0 : windowSum qs p 0 = (qs.take p).sum := by
    unfold windowSum
    rw [List.drop_zero]
  have h := slideWin_spec smaStep qs p (fun j => windowSum qs p j) hstep (qs.length - p) 0
    (by omega)
  simp only [List.drop_zero, Nat.zero_add, h0] at h
  rw [h, List.range_succ_eq_map, List.map_cons, List.map_map]
  congr 1

theorem valid_not_bad (data : List DVal) (period : ℤ) (hp : 0 < period)
    (hlen : period.toNat ≤ data.length) :
    ¬ (period ≤ 0 ∨ data = [] ∨ data.length < period.toNat) := by
  push_neg
  refine ⟨by omega, ?_, by omega⟩
  intro h0
  rw [h0] at hlen
  simp only [List.length_nil] at hlen
  omega

theorem cast_period_eq (period : ℤ) (hp : 0 < period) :
    ((period : ℤ) : ℚ) = ((period.toNat : ℕ) : ℚ) := by
  conv_lhs => rw [← Int.toNat_of_nonneg (le_of_lt hp)]
  push_cast
  ring

theorem getD_map_range {β : Type} (m i : ℕ) (f : ℕ → β) (d : β) (h : i < m) :
    ((List.range m).map f).getD i d = f i := by
  have hb : i < ((List.range m).map f).length := by simpa using h
  rw [List.getD_eq_getElem?_getD, List.getElem?_eq_getElem hb]
  simp

/-- C3: for valid inputs, `SMA` returns exactly one value per window
(length n - p + 1) and each value is the brute-force arithmetic mean of its
window. -/
theorem SMA_windowMean (data : List DVal) (period : ℤ) (hp : 0 < period)
    (hlen : period.toNat ≤ data.length) (hfin : data.all DVal.isFinite = true) :
    (SMA data period).length = data.length - period.toNat + 1 ∧
      SMA data period =
        (List.range (data.length - period.toNat + 1)).map
          (fun i => windowMean (data.map DVal.toQ) period.toNat i) := by
  have hcond : ¬ (period ≤ 0 ∨ data = [] ∨ data.length < period.toNat) := by
    push_neg
    refine ⟨by omega, ?_, by omega⟩
    intro h0
    rw [h0] at hlen
    simp only [List.length_nil] at hlen
    omega
  have hlq : (data.map DVal.toQ).length = data.length := List.length_map _ _
  have hmain : SMA data period =
      (List.range (data.length - period.toNat + 1)).map
        (fun i => windowMean (data.map DVal.toQ) period.toNat i) := by
    unfold SMA
    rw [if_neg hcond, if_neg (by simp [hfin])]
    dsimp only
    rw [slide_sums_spec (data.map DVal.toQ) period.toNat (by omega) (by omega), List.map_map]
    rw [hlq]
    apply List.map_congr_left
    intro i _
    show windowSum (data.map DVal.toQ) period.toNat i / ((period : ℤ) : ℚ) = _
    unfold windowMean windowSum
    congr 1
    conv_lhs => rw [← Int.toNat_of_nonneg (le_of_lt hp)]
    push_cast
    ring
  refine ⟨?_, hmain⟩
  rw [hmain, List.length_map, List.length_range]

/-- Witness for C3: SMA of [1,2,3,4] with period 2 has length 3 and matches
the per-window means [3/2, 5/2, 7/2]. -/
theorem SMA_windowMean_witness :
    (SMA ([1, 2, 3, 4].map DVal.num) 2).length = 3 ∧
      SMA ([1, 2, 3, 4].map DVal.num) 2 =
        (List.range 3).map (fun i => windowMean (([1, 2, 3, 4].map DVal.num).map DVal.toQ) 2 i) := by
  have h := SMA_windowMean ([1, 2, 3, 4].map DVal.num) 2 (by norm_num)
    (by norm_num [show (2 : ℤ).toNat = 2 from rfl]) (by decide)
  simpa [show (2 : ℤ).toNat = 2 from rfl] using h

/-! ### The EMA recurrence -/

theorem emaRec_length (m : ℚ) : ∀ (xs : List ℚ) (e : ℚ), (emaRec m e xs).length = xs.length := by
  intro xs
  induction xs with
  | nil => intro e; rfl
  | cons x t ih =>
    intro e
    simp only [emaRec, List.length_cons]
    rw [ih]

theorem emaRec_getD_succ (m : ℚ) : ∀ (xs : List ℚ) (e : ℚ) (i : ℕ), i < xs.length →
    (e :: emaRec m e xs).getD (i + 1) 0 =
      (xs.getD i 0 - (e :: emaRec m e xs).getD i 0) * m +
        (e :: emaRec m e xs).getD i 0 := by
  intro xs
  induction xs with
  | nil => intro e i h; simp at h
  | cons x t ih =>
    intro e i h
    cases i with
    | zero => simp [emaRec]
    | succ i =>
      have hlen : i < t.length := by simpa using h
      simp only [emaRec, List.getD_cons_succ]
      exact ih ((x - e) * m + e) i hlen

/-- C2 (amended): for valid inputs, `EMA` returns one value per input
position; its value at index 0 (not index period-1) is the simple average
of the first `period` elements, and every later value follows the
smoothing recurrence with factor 2/(period+1), the loop re-consuming
inputs 1..period-1. -/
theorem EMA_recurrence (data : List DVal) (period : ℤ) (hp : 0 < period)
    (hlen : period.toNat ≤ data.length) (hfin : data.all DVal.isFinite = true) :
    (EMA data period).length = data.length ∧
      (EMA data period).getD 0 0 =
        ((data.map DVal.toQ).take period.toNat).sum / ((period : ℤ) : ℚ) ∧
      ∀ i, 1 ≤ i → i < data.length →
        (EMA data period).getD i 0 =
          (EMA data period).getD (i - 1) 0 +
            2 / (((period : ℤ) : ℚ) + 1) *
              ((data.map DVal.toQ).getD i 0 - (EMA data period).getD (i - 1) 0) := by
  have hq : (data.map DVal.toQ).length = data.length := List.length_map _ _
  have hEMA : EMA data period =
      ((data.map DVal.toQ).take period.toNat).sum / ((period : ℤ) : ℚ) ::
        emaRec (2 / (((period : ℤ) : ℚ) + 1))
          (((data.map DVal.toQ).take period.toNat).sum / ((period : ℤ) : ℚ))
          ((data.map DVal.toQ).drop 1) := by
    unfold EMA
    rw [if_neg (valid_not_bad data period hp hlen), if_neg (by simp [hfin])]
  refine ⟨?_, ?_, ?_⟩
  · rw [hEMA, List.length_cons, emaRec_length, List.length_drop, hq]
    have : 1 ≤ data.length := by omega
    omega
  · rw [hEMA]
    rfl
  · intro i h1 h2
    obtain ⟨j, rfl⟩ : ∃ j, i = j + 1 := ⟨i - 1, by omega⟩
    simp only [Nat.add_sub_cancel]
    rw [hEMA]
    have hj : j < ((data.map DVal.toQ).drop 1).length := by
      rw [List.length_drop, hq]
      omega
    rw [emaRec_getD_succ _ _ _ j hj, getD_drop]
    have : 1 + j = j + 1 := by omega
    rw [this]
    ring

/-- C2 counterexample: for input [1,2,3,4] and period 2 the claim places
the seed value 3/2 (the simple average of the first two elements) at index
period-1 = 1, but the code emits 11/6 there: the seed is emitted at index 0
and the recurrence starts again from input index 1. -/
theorem EMA_seed_index_cex :
    (EMA [DVal.num 1, DVal.num 2, DVal.num 3, DVal.num 4] 2).getD 1 0 = 11 / 6 ∧
      (([DVal.num 1, DVal.num 2, DVal.num 3, DVal.num 4].map DVal.toQ).take 2).sum /
          ((2 : ℤ) : ℚ) = 3 / 2 ∧
      (11 : ℚ) / 6 ≠ 3 / 2 := by
  refine ⟨?_, by norm_num [DVal.toQ], by norm_num⟩
  norm_num [EMA, emaRec, DVal.toQ, DVal.isFinite, show (2 : ℤ).toNat = 2 from rfl,
    List.cons_ne_nil]

/-- Witness for C2 at input [1,2,3,4], period 2, recurrence index 1. -/
theorem EMA_recurrence_witness :
    (EMA [DVal.num 1, DVal.num 2, DVal.num 3, DVal.num 4] 2).length = 4 ∧
      (EMA [DVal.num 1, DVal.num 2, DVal.num 3, DVal.num 4] 2).getD 0 0 =
        (([DVal.num 1, DVal.num 2, DVal.num 3, DVal.num 4].map DVal.toQ).take 2).sum /
          ((2 : ℤ) : ℚ) ∧
      (EMA [DVal.num 1, DVal.num 2, DVal.num 3, DVal.num 4] 2).getD 1 0 =
        (EMA [DVal.num 1, DVal.num 2, DVal.num 3, DVal.num 4] 2).getD 0 0 +
          2 / (((2 : ℤ) : ℚ) + 1) *
            (([DVal.num 1, DVal.num 2, DVal.num 3, DVal.num 4].map DVal.toQ).getD 1 0 -
              (EMA [DVal.num 1, DVal.num 2, DVal.num 3, DVal.num 4] 2).getD 0 0) := by
  have h := EMA_recurrence [DVal.num 1, DVal.num 2, DVal.num 3, DVal.num 4] 2
    (by norm_num) (by norm_num [show (2 : ℤ).toNat = 2 from rfl]) (by decide)
  refine ⟨h.1, h.2.1, ?_⟩
  have h3 := h.2.2 1 (by norm_num) (by norm_num)
  simpa using h3

/-! ### The paired sum / sum-of-squares slide -/

theorem slide_roll_spec (qs : List ℚ) (p : ℕ) (hp : 1 ≤ p) (hpl : p ≤ qs.length) :
    ((qs.take p).sum, ((qs.take p).map (fun x => x * x)).sum) ::
        slideWin rollStep ((qs.take p).sum, ((qs.take p).map (fun x => x * x)).sum) qs
          (qs.drop p) =
      (List.range (qs.length - p + 1)).map
        (fun i => (windowSum qs p i, windowSum (qs.map (fun x => x * x)) p i)) := by
  have hsq : (qs.map (fun x => x * x)).length = qs.length := List.length_map _ _
  have hstep : ∀ j, j + p < qs.length →
      rollStep (windowSum qs p j, windowSum (qs.map (fun x => x * x)) p j)
          (qs.getD j 0) (qs.getD (j + p) 0) =
        (windowSum qs p (j + 1), windowSum (qs.map (fun x => x * x)) p (j + 1)) := by
    intro j hj
    unfold rollStep
    dsimp only
    rw [windowSum_succ qs p j hp hj,
      windowSum_succ (qs.map (fun x => x * x)) p j hp (by rw [hsq]; exact hj),
      getD_map_sq, getD_map_sq]
  have h0a : windowSum qs p 0 = (qs.take p).sum := by
    unfold windowSum
    rw [List.drop_zero]
  have h0b : windowSum (qs.map (fun x => x * x)) p 0 =
      ((qs.take p).map (fun x => x * x)).sum := by
    unfold windowSum
    rw [List.drop_zero, List.map_take]
  have h := slideWin_spec rollStep qs p
    (fun j => (windowSum qs p j, windowSum (qs.map (fun x => x * x)) p j)) hstep
    (qs.length - p) 0 (by omega)
  simp only [List.drop_zero, Nat.zero_add] at h
  rw [← h0a, ← h0b, h, List.range_succ_eq_map, List.map_cons, List.map_map]
  congr 1

theorem RollingVar_spec (data : List DVal) (period : ℤ) (hp : 0 < period)
    (hlen : period.toNat ≤ data.length) (hfin : data.all DVal.isFinite = true) :
    RollingVar data period =
      (List.range (data.length - period.toNat + 1)).map
        (fun i => varOf ((period : ℤ) : ℚ)
          (windowSum (data.map DVal.toQ) period.toNat i,
           windowSum ((data.map DVal.toQ).map (fun x => x * x)) period.toNat i)) := by
  unfold RollingVar
  rw [if_neg (valid_not_bad data period hp hlen), if_neg (by simp [hfin])]
  dsimp only
  rw [slide_roll_spec (data.map DVal.toQ) period.toNat (by omega)
      (by rw [List.length_map]; exact hlen),
    List.map_map, List.length_map]
  rfl

theorem BollingerMeanVar_spec (data : List DVal) (period : ℤ) (mult : ℚ) (hp : 0 < period)
    (hlen : period.toNat ≤ data.length) (hfin : data.all DVal.isFinite = true)
    (hm : 0 ≤ mult) :
    BollingerMeanVar data period mult =
      (List.range (data.length - period.toNat + 1)).map
        (fun i =>
          (windowSum (data.map DVal.toQ) period.toNat i / ((period : ℤ) : ℚ),
           varOf ((period : ℤ) : ℚ)
             (windowSum (data.map DVal.toQ) period.toNat i,
              windowSum ((data.map DVal.toQ).map (fun x => x * x)) period.toNat i))) := by
  have hb : ¬ (period ≤ 0 ∨ data = [] ∨ data.length < period.toNat ∨ mult < 0) := by
    have h1 := valid_not_bad data period hp hlen
    push_neg at h1 ⊢
    exact ⟨h1.1, h1.2.1, h1.2.2, hm⟩
  unfold BollingerMeanVar
  rw [if_neg hb, if_neg (by simp [hfin])]
  dsimp only
  rw [slide_roll_spec (data.map DVal.toQ) period.toNat (by omega)
      (by rw [List.length_map]; exact hlen),
    List.map_map, List.length_map]
  rfl

theorem bb_general (data : List DVal) (period : ℤ) (mult : ℚ) (m : ℕ) (F : ℕ → ℚ × ℚ)
    (G : ℕ → ℚ)
    (hMV : BollingerMeanVar data period mult = (List.range m).map F)
    (hRV : RollingVar data period = (List.range m).map (fun i => (F i).2))
    (hSMA : SMA data period = (List.range m).map G)
    (hFG : ∀ i, i < m → (F i).1 = G i) :
    (BollingerBands data period mult).1.length = m ∧
      (BollingerBands data period mult).2.1.length = m ∧
      (BollingerBands data period mult).2.2.length = m ∧
      (BollingerBands data period mult).2.1 =
        (SMA data period).map (fun q : ℚ => (q : ℝ)) ∧
      ∀ i, i < m →
        (BollingerBands data period mult).1.getD i 0 -
            (BollingerBands data period mult).2.1.getD i 0 =
          (mult : ℝ) * (RollingStdDev data period).getD i 0 ∧
        (BollingerBands data period mult).2.1.getD i 0 -
            (BollingerBands data period mult).2.2.getD i 0 =
          (mult : ℝ) * (RollingStdDev data period).getD i 0 := by
  have hRSD : ∀ i, i < m →
      (RollingStdDev data period).getD i 0 = Real.sqrt (((F i).2 : ℚ) : ℝ) := by
    intro i hi
    unfold RollingStdDev
    rw [hRV, List.map_map, getD_map_range _ _ _ _ hi]
    rfl
  unfold BollingerBands
  rw [hMV]
  dsimp only
  rw [List.map_map, List.map_map, List.map_map]
  refine ⟨by simp, by simp, by simp, ?_, ?_⟩
  · rw [hSMA, List.map_map]
    apply List.map_congr_left
    intro i himem
    have hi : i < m := List.mem_range.mp himem
    show (((F i).1 : ℚ) : ℝ) = ((G i : ℚ) : ℝ)
    rw [hFG i hi]
  · intro i hi
    rw [getD_map_range _ _ _ _ hi, getD_map_range _ _ _ _ hi, getD_map_range _ _ _ _ hi,
      hRSD i hi]
    dsimp only [Function.comp]
    constructor
    · ring
    · ring

/-- C6: for valid inputs and a non-negative multiplier, the three
BollingerBands sequences all have length n - period + 1, the middle band
equals `SMA` elementwise, and at every position
upper - middle = middle - lower = multiplier x the rolling standard
deviation of that window. -/
theorem BollingerBands_relations (data : List DVal) (period : ℤ) (mult : ℚ)
    (hp : 0 < period) (hlen : period.toNat ≤ data.length)
    (hfin : data.all DVal.isFinite = true) (hm : 0 ≤ mult) :
    (BollingerBands data period mult).1.length = data.length - period.toNat + 1 ∧
      (BollingerBands data period mult).2.1.length = data.length - period.toNat + 1 ∧
      (BollingerBands data period mult).2.2.length = data.length - period.toNat + 1 ∧
      (BollingerBands data period mult).2.1 =
        (SMA data period).map (fun q : ℚ => (q : ℝ)) ∧
      ∀ i, i < data.length - period.toNat + 1 →
        (BollingerBands data period mult).1.getD i 0 -
            (BollingerBands data period mult).2.1.getD i 0 =
          (mult : ℝ) * (RollingStdDev data period).getD i 0 ∧
        (BollingerBands data period mult).2.1.getD i 0 -
            (BollingerBands data period mult).2.2.getD i 0 =
          (mult : ℝ) * (RollingStdDev data period).getD i 0 := by
  refine bb_general data period mult (data.length - period.toNat + 1)
    (fun i =>
      (windowSum (data.map DVal.toQ) period.toNat i / ((period : ℤ) : ℚ),
       varOf ((period : ℤ) : ℚ)
         (windowSum (data.map DVal.toQ) period.toNat i,
          windowSum ((data.map DVal.toQ).map (fun x => x * x)) period.toNat i)))
    (fun i => windowMean (data.map DVal.toQ) period.toNat i)
    (BollingerMeanVar_spec data period mult hp hlen hfin hm)
    (RollingVar_spec data period hp hlen hfin)
    ((SMA_windowMean data period hp hlen hfin).2)
    ?_
  intro i _
  show windowSum (data.map DVal.toQ) period.toNat i / ((period : ℤ) : ℚ) = _
  rw [cast_period_eq period hp]
  rfl

/-- Witness for C6 at data [1,2,3], period 2, multiplier 2, position 0. -/
theorem BollingerBands_relations_witness :
    (BollingerBands [DVal.num 1, DVal.num 2, DVal.num 3] 2 2).1.length = 2 ∧
      (BollingerBands [DVal.num 1, DVal.num 2, DVal.num 3] 2 2).2.1 =
        (SMA [DVal.num 1, DVal.num 2, DVal.num 3] 2).map (fun q : ℚ => (q : ℝ)) ∧
      (BollingerBands [DVal.num 1, DVal.num 2, DVal.num 3] 2 2).1.getD 0 0 -
          (BollingerBands [DVal.num 1, DVal.num 2, DVal.num 3] 2 2).2.1.getD 0 0 =
        ((2 : ℚ) : ℝ) * (RollingStdDev [DVal.num 1, DVal.num 2, DVal.num 3] 2).getD 0 0 := by
  have h := BollingerBands_relations [DVal.num 1, DVal.num 2, DVal.num 3] 2 2
    (by norm_num) (by norm_num [show (2 : ℤ).toNat = 2 from rfl]) (by decide) (by norm_num)
  refine ⟨?_, h.2.2.2.1, ?_⟩
  · have h1 := h.1
    simpa [show (2 : ℤ).toNat = 2 from rfl] using h1
  · have h5 := (h.2.2.2.2 0 (by norm_num [show (2 : ℤ).toNat = 2 from rfl])).1
    exact h5

/-! ### Welford's algorithm and the rolling standard deviation -/

theorem sum_sq_nonneg (xs : List ℚ) : 0 ≤ (xs.map (fun x => x * x)).sum := by
  induction xs with
  | nil => simp
  | cons x t ih =>
    simp only [List.map_cons, List.sum_cons]
    nlinarith [mul_self_nonneg x]

theorem list_sq_sum_le (xs : List ℚ) :
    xs.sum * xs.sum ≤ (xs.length : ℚ) * ((xs.map (fun x => x * x)).sum) := by
  induction xs with
  | nil => simp
  | cons x t ih =>
    by_cases ht : t = []
    · subst ht
      simp
    · have h0 : t.length ≠ 0 := fun h => ht (List.length_eq_zero.mp h)
      have hn1 : (1 : ℚ) ≤ (t.length : ℚ) := by
        have : 1 ≤ t.length := Nat.one_le_iff_ne_zero.mpr h0
        exact_mod_cast this
      simp only [List.sum_cons, List.map_cons, List.length_cons]
      push_cast
      nlinarith [ih, sq_nonneg ((t.length : ℚ) * x - t.sum), hn1, sum_sq_nonneg t]

theorem welford_foldl (xs : List ℚ) :
    xs.foldl welfordStep (0, 0, 0) =
      (xs.sum / (xs.length : ℚ),
       (xs.map (fun x => x * x)).sum - xs.sum * xs.sum / (xs.length : ℚ),
       xs.length) := by
  induction xs using List.reverseRecOn with
  | nil => simp
  | append_singleton t x ih =>
    rw [List.foldl_append, List.foldl_cons, List.foldl_nil, ih]
    by_cases ht : t = []
    · subst ht
      norm_num [welfordStep]
    · have h0 : t.length ≠ 0 := fun h => ht (List.length_eq_zero.mp h)
      have hn : (t.length : ℚ) ≠ 0 := by exact_mod_cast h0
      have hn1 : ((t.length : ℚ) + 1) ≠ 0 := by positivity
      simp only [List.sum_append, List.map_append, List.length_append, List.sum_cons,
        List.sum_nil, List.map_cons, List.map_nil, List.length_cons, List.length_nil]
      unfold welfordStep
      dsimp only
      simp only [Prod.mk.injEq]
      refine ⟨?_, ?_, by trivial⟩
      · push_cast
        field_simp
        ring
      · push_cast
        field_simp
        ring

theorem stdDevVar_window (wq : List ℚ) (hne : wq ≠ []) :
    varOf (wq.length : ℚ) (wq.sum, (wq.map (fun x => x * x)).sum) =
      (if wq.length < 2 then (0 : ℚ)
       else ((wq.map (fun x => x * x)).sum - wq.sum * wq.sum / (wq.length : ℚ)) /
         (wq.length : ℚ)) := by
  by_cases h2 : wq.length < 2
  · rw [if_pos h2]
    obtain ⟨x, rfl⟩ : ∃ x, wq = [x] := by
      cases wq with
      | nil => exact absurd rfl hne
      | cons x t =>
        cases t with
        | nil => exact ⟨x, rfl⟩
        | cons y t2 =>
          simp only [List.length_cons] at h2
          omega
    simp [varOf]
  · rw [if_neg h2]
    have hn2 : 2 ≤ wq.length := by omega
    have hc2 : (2 : ℚ) ≤ (wq.length : ℚ) := by exact_mod_cast hn2
    have hc0 : (wq.length : ℚ) ≠ 0 := by
      intro h
      rw [h] at hc2
      norm_num at hc2
    have hcs := list_sq_sum_le wq
    unfold varOf
    dsimp only
    rw [max_eq_right]
    · field_simp
      ring
    · have heq : (wq.map (fun x => x * x)).sum / (wq.length : ℚ) -
          wq.sum / (wq.length : ℚ) * (wq.sum / (wq.length : ℚ)) =
          ((wq.length : ℚ) * ((wq.map (fun x => x * x)).sum) - wq.sum * wq.sum) /
            ((wq.length : ℚ) * (wq.length : ℚ)) := by
        field_simp
        ring
      rw [heq]
      apply div_nonneg
      · linarith
      · positivity

/-- C5: for valid inputs, each element of the RollingStdDev sequence equals
`StdDev` (one-pass Welford population standard deviation) applied to the
corresponding window of the input. -/
theorem RollingStdDev_matches_StdDev (data : List DVal) (period : ℤ) (hp : 0 < period)
    (hlen : period.toNat ≤ data.length) (hfin : data.all DVal.isFinite = true)
    (i : ℕ) (hi : i + period.toNat ≤ data.length) :
    (RollingStdDev data period).getD i 0 = StdDev ((data.drop i).take period.toNat) := by
  have hqlen : (data.map DVal.toQ).length = data.length := List.length_map _ _
  have him : i < data.length - period.toNat + 1 := by omega
  have hL : (RollingStdDev data period).getD i 0 =
      Real.sqrt ((varOf ((period : ℤ) : ℚ)
        (windowSum (data.map DVal.toQ) period.toNat i,
         windowSum ((data.map DVal.toQ).map (fun x => x * x)) period.toNat i) : ℚ) : ℝ) := by
    unfold RollingStdDev
    rw [RollingVar_spec data period hp hlen hfin, List.map_map, getD_map_range _ _ _ _ him]
    rfl
  have hw : ((data.drop i).take period.toNat).map DVal.toQ =
      ((data.map DVal.toQ).drop i).take period.toNat := by
    rw [List.map_take, List.map_drop]
  have hwlen : (((data.map DVal.toQ).drop i).take period.toNat).length = period.toNat := by
    rw [List.length_take, List.length_drop]
    omega
  have hwne : (data.drop i).take period.toNat ≠ [] := by
    intro h0
    have := congrArg List.length (hw.symm.trans (congrArg (List.map DVal.toQ) h0))
    rw [hwlen] at this
    simp only [List.map_nil, List.length_nil] at this
    omega
  have hwfin : ((data.drop i).take period.toNat).all DVal.isFinite = true := by
    rw [List.all_eq_true] at hfin ⊢
    intro x hx
    exact hfin x (List.mem_of_mem_drop (List.mem_of_mem_take hx))
  rw [hL]
  unfold StdDev
  congr 1
  congr 1
  unfold StdDevVar
  rw [if_neg hwne, if_neg (by simp [hwfin])]
  dsimp only
  rw [hw, welford_foldl]
  dsimp only
  rw [hwlen]
  have hkey := stdDevVar_window (((data.map DVal.toQ).drop i).take period.toNat)
    (by
      intro h0
      rw [h0] at hwlen
      simp only [List.length_nil] at hwlen
      omega)
  rw [hwlen] at hkey
  have hQform : ((((data.map DVal.toQ).drop i).take period.toNat).map (fun x => x * x)) =
      (((data.map DVal.toQ).map (fun x => x * x)).drop i).take period.toNat := by
    rw [List.map_take, List.map_drop]
  have hcast : ((period : ℤ) : ℚ) = (period.toNat : ℚ) := cast_period_eq period hp
  rw [hQform] at hkey
  rw [hQform, ← hkey, hcast]
  rfl

/-- Witness for C5 at data [1,2,3,4], period 2, window index 1. -/
theorem RollingStdDev_matches_StdDev_witness :
    (RollingStdDev [DVal.num 1, DVal.num 2, DVal.num 3, DVal.num 4] 2).getD 1 0 =
      StdDev (([DVal.num 1, DVal.num 2, DVal.num 3, DVal.num 4].drop 1).take 2) := by
  have h := RollingStdDev_matches_StdDev [DVal.num 1, DVal.num 2, DVal.num 3, DVal.num 4] 2
    (by norm_num) (by norm_num [show (2 : ℤ).toNat = 2 from rfl]) (by decide) 1
    (by norm_num [show (2 : ℤ).toNat = 2 from rfl])
  simpa [show (2 : ℤ).toNat = 2 from rfl] using h

end FastQuant
